import Mathlib

/-!
# Verification of the sortify classification and execution core

Shallow embedding of the sortify repository's core logic:

* `src/services/pipeline.py` — `VotingEngine._arbitrate`, `VotingEngine.process_file`
* `src/core/classification/voters.py` — `SessionVoter.vote`
* `src/core/models.py` — `FolderCluster.update_centroid`, `get_effective_embedding`
* `src/services/executor.py` — `Executor._get_safe_dest`, `safe_move`, `undo_last`
* `src/services/execution.py` — `ExecutionService.execute_move`, `_resolve_collision`
* `src/services/memory.py` — `SemanticMemory.learn`, `_rebuild_index`

Python floats are embedded as exact rationals (`ℚ`); Python dicts with
insertion-order iteration are embedded as association lists where updates
keep position and fresh keys are appended; `max(d, key=d.get)` is embedded
as a left fold that keeps the first strictly greatest entry.
-/

/-! ## Voting and arbitration (`src/services/pipeline.py`) -/

/-- A voter as seen by arbitration: its class attributes `name` and `weight`. -/
structure VoterId where
  name : String
  weight : ℚ
deriving DecidableEq, Repr

/-- One element of the `votes` list of `process_file`: `(voter, category, confidence)`. -/
abbrev Vote := VoterId × String × ℚ

/-- One step of the scoreboard-building loop of `_arbitrate` (pipeline.py 112-118):
`scoreboard[category] = scoreboard.get(category, 0.0) + voter.weight * confidence`,
on a Python dict embedded as an insertion-ordered association list. -/
def addVote (sb : List (String × ℚ)) (w : ℚ) (cat : String) (conf : ℚ) : List (String × ℚ) :=
  if sb.any (fun p => p.1 = cat) then
    sb.map (fun p => if p.1 = cat then (p.1, p.2 + w * conf) else p)
  else
    sb ++ [(cat, w * conf)]

/-- The scoreboard built by the loop of `_arbitrate` over the vote list. -/
def buildScoreboard (votes : List Vote) : List (String × ℚ) :=
  votes.foldl (fun sb v => addVote sb v.1.weight v.2.1 v.2.2) []

/-- Python's `max(scoreboard, key=scoreboard.get)`: first entry with the greatest
value, iterating in insertion order. -/
def argmaxFirst (l : List (String × ℚ)) : Option (String × ℚ) :=
  match l with
  | [] => none
  | p :: ps => some (ps.foldl (fun best q => if best.2 < q.2 then q else best) p)

/-- `VotingEngine._arbitrate` (pipeline.py 101-129): empty vote list yields
`("Unknown", 0.0, {})`; otherwise the weighted scoreboard is built, the winner is
the (first) arg-max key, and the confidence is `min(score[winner], 1.0)`. -/
def arbitrate (votes : List Vote) : String × ℚ × List (String × ℚ) :=
  if votes.isEmpty then ("Unknown", 0, [])
  else
    let sb := buildScoreboard votes
    match argmaxFirst sb with
    | none => ("Unknown", 0, [])
    | some m => (m.1, min m.2 1, sb)

/-- Specification-side sum: total `weight * confidence` contributed by the votes
for a given category. -/
def scoreOf (votes : List Vote) (cat : String) : ℚ :=
  ((votes.filter (fun v => v.2.1 = cat)).map (fun v => v.1.weight * v.2.2)).sum

/-- Dict lookup on the association-list embedding. -/
def lookupScore (sb : List (String × ℚ)) (cat : String) : Option ℚ :=
  (sb.find? (fun p => p.1 = cat)).map (fun p => p.2)

theorem addVote_keys (sb : List (String × ℚ)) (w : ℚ) (cat : String) (conf : ℚ) :
    (addVote sb w cat conf).map Prod.fst =
      if sb.any (fun p => p.1 = cat) then sb.map Prod.fst else sb.map Prod.fst ++ [cat] := by
  unfold addVote
  split
  · simp only [List.map_map]
    refine List.map_congr_left ?_
    intro p _
    by_cases h : p.1 = cat <;> simp [h]
  · simp

theorem addVote_keys_nodup (sb : List (String × ℚ)) (w : ℚ) (cat : String) (conf : ℚ)
    (h : (sb.map Prod.fst).Nodup) : ((addVote sb w cat conf).map Prod.fst).Nodup := by
  rw [addVote_keys]
  split
  · exact h
  · next hany =>
    rw [List.nodup_append]
    refine ⟨h, List.nodup_singleton cat, ?_⟩
    intro a ha
    simp only [List.mem_map] at ha
    obtain ⟨p, hp, rfl⟩ := ha
    simp only [List.any_eq_true, decide_eq_true_eq] at hany
    simp only [List.mem_singleton]
    intro hac
    exact hany ⟨p, hp, hac⟩

theorem lookupScore_map_update (sb : List (String × ℚ)) (cat : String) (w conf : ℚ)
    (cat' : String) :
    lookupScore (sb.map (fun p => if p.1 = cat then (p.1, p.2 + w * conf) else p)) cat' =
      (lookupScore sb cat').map (fun s => if cat' = cat then s + w * conf else s) := by
  unfold lookupScore
  rw [List.find?_map]
  have hq : ((fun p : String × ℚ => decide (p.1 = cat')) ∘
      (fun p : String × ℚ => if p.1 = cat then (p.1, p.2 + w * conf) else p)) =
      (fun p : String × ℚ => decide (p.1 = cat')) := by
    funext p
    by_cases h : p.1 = cat <;> simp [h]
  rw [hq]
  cases hfind : sb.find? (fun p => decide (p.1 = cat')) with
  | none => simp
  | some p =>
    have hp : p.1 = cat' := by
      have := List.find?_some hfind
      simpa using this
    by_cases hc : cat' = cat
    · have : p.1 = cat := by rw [hp, hc]
      simp [this, hc]
    · have : ¬ p.1 = cat := by rw [hp]; exact hc
      simp [this, hc]

theorem lookupScore_append_single (sb : List (String × ℚ)) (cat : String) (x : ℚ)
    (cat' : String) :
    lookupScore (sb ++ [(cat, x)]) cat' =
      ((lookupScore sb cat').orElse (fun _ => if cat' = cat then some x else none)) := by
  unfold lookupScore
  induction sb with
  | nil =>
    by_cases hc : cat' = cat
    · simp [List.find?, hc.symm]
    · have : ¬ cat = cat' := fun h => hc h.symm
      simp [List.find?, this, hc]
  | cons p ps ih =>
    by_cases hp : p.1 = cat'
    · simp [List.find?, hp]
    · have h1 : (decide (p.1 = cat')) = false := by simp [hp]
      simp only [List.cons_append, List.find?, h1]
      exact ih

theorem lookupScore_mem_any (sb : List (String × ℚ)) (cat : String) :
    (sb.any (fun p => p.1 = cat)) = true ↔ (lookupScore sb cat).isSome := by
  unfold lookupScore
  rw [List.any_eq_true]
  constructor
  · rintro ⟨p, hp, hpc⟩
    have : ∃ p ∈ sb, (fun q : String × ℚ => decide (q.1 = cat)) p := ⟨p, hp, hpc⟩
    rw [← List.find?_isSome] at this
    simpa using this
  · intro h
    have h2 : (sb.find? (fun q : String × ℚ => decide (q.1 = cat))).isSome := by
      cases hf : sb.find? (fun q : String × ℚ => decide (q.1 = cat)) with
      | none => rw [hf] at h; simp at h
      | some p => simp
    rw [List.find?_isSome] at h2
    obtain ⟨p, hp, hpc⟩ := h2
    exact ⟨p, hp, hpc⟩

theorem lookupScore_addVote_ne (sb : List (String × ℚ)) (w : ℚ) (cat : String) (conf : ℚ)
    (cat' : String) (hne : cat' ≠ cat) :
    lookupScore (addVote sb w cat conf) cat' = lookupScore sb cat' := by
  unfold addVote
  split
  · rw [lookupScore_map_update]
    cases lookupScore sb cat' with
    | none => simp
    | some s => simp [hne]
  · rw [lookupScore_append_single]
    cases h : lookupScore sb cat' with
    | none => simp [hne]
    | some s => simp

theorem lookupScore_addVote_eq (sb : List (String × ℚ)) (w : ℚ) (cat : String) (conf : ℚ) :
    lookupScore (addVote sb w cat conf) cat =
      some ((lookupScore sb cat).getD 0 + w * conf) := by
  unfold addVote
  by_cases hany : (sb.any (fun p => p.1 = cat)) = true
  · rw [if_pos hany, lookupScore_map_update]
    rw [lookupScore_mem_any] at hany
    cases h : lookupScore sb cat with
    | none => rw [h] at hany; simp at hany
    | some s => simp
  · rw [if_neg hany, lookupScore_append_single]
    have : ¬ (lookupScore sb cat).isSome := by
      rw [← lookupScore_mem_any]; exact hany
    cases h : lookupScore sb cat with
    | none => simp
    | some s => rw [h] at this; simp at this

theorem scoreOf_nil (cat : String) : scoreOf [] cat = 0 := rfl

theorem scoreOf_cons (v : Vote) (vs : List Vote) (cat : String) :
    scoreOf (v :: vs) cat =
      (if v.2.1 = cat then v.1.weight * v.2.2 else 0) + scoreOf vs cat := by
  unfold scoreOf
  by_cases h : v.2.1 = cat <;> simp [h]

theorem lookupScore_foldl (votes : List Vote) : ∀ (sb : List (String × ℚ)) (cat : String),
    lookupScore (votes.foldl (fun sb v => addVote sb v.1.weight v.2.1 v.2.2) sb) cat =
      if (votes.any (fun v => v.2.1 = cat)) = true ∨ (lookupScore sb cat).isSome = true
      then some ((lookupScore sb cat).getD 0 + scoreOf votes cat) else none := by
  induction votes with
  | nil =>
    intro sb cat
    simp only [List.foldl_nil, List.any_nil, scoreOf_nil]
    cases h : lookupScore sb cat with
    | none => simp [h]
    | some s => simp [h]
  | cons v vs ih =>
    intro sb cat
    simp only [List.foldl_cons]
    rw [ih]
    by_cases hv : v.2.1 = cat
    · subst hv
      rw [lookupScore_addVote_eq]
      simp only [List.any_cons, decide_True, Bool.true_or, Option.isSome_some,
        or_true, if_pos, scoreOf_cons, if_pos rfl, Option.getD_some]
      congr 1
      ring
    · rw [lookupScore_addVote_ne sb v.1.weight v.2.1 v.2.2 cat (fun h => hv h.symm)]
      have hd : (decide (v.2.1 = cat)) = false := by simp [hv]
      simp only [List.any_cons, hd, Bool.false_or, scoreOf_cons, if_neg hv, zero_add]

theorem lookupScore_buildScoreboard (votes : List Vote) (cat : String) :
    lookupScore (buildScoreboard votes) cat =
      if (votes.any (fun v => v.2.1 = cat)) = true then some (scoreOf votes cat) else none := by
  unfold buildScoreboard
  rw [lookupScore_foldl]
  by_cases h : (votes.any fun v => decide (v.2.1 = cat)) = true
  · simp [h, lookupScore]
  · simp [h, lookupScore]

theorem buildScoreboard_keys_nodup (votes : List Vote) :
    ((buildScoreboard votes).map Prod.fst).Nodup := by
  unfold buildScoreboard
  suffices h : ∀ sb : List (String × ℚ), (sb.map Prod.fst).Nodup →
      ((votes.foldl (fun sb v => addVote sb v.1.weight v.2.1 v.2.2) sb).map Prod.fst).Nodup by
    exact h [] (by simp)
  induction votes with
  | nil => intro sb hsb; simpa using hsb
  | cons v vs ih =>
    intro sb hsb
    exact ih _ (addVote_keys_nodup sb v.1.weight v.2.1 v.2.2 hsb)

theorem lookupScore_eq_some_iff_mem (sb : List (String × ℚ))
    (h : (sb.map Prod.fst).Nodup) (cat : String) (s : ℚ) :
    lookupScore sb cat = some s ↔ (cat, s) ∈ sb := by
  induction sb with
  | nil => simp [lookupScore]
  | cons p ps ih =>
    obtain ⟨a, b⟩ := p
    simp only [List.map_cons, List.nodup_cons] at h
    obtain ⟨hnk, hnd⟩ := h
    by_cases hp : a = cat
    · have hl : lookupScore ((a, b) :: ps) cat = some b := by
        simp [lookupScore, List.find?, hp]
      rw [hl]
      constructor
      · intro h'
        have hs : b = s := Option.some.inj h'
        subst hs
        have heq : ((cat : String), b) = (a, b) := by rw [hp]
        rw [heq]
        exact List.mem_cons_self _ _
      · intro hmem
        rcases List.mem_cons.mp hmem with heq | hmem'
        · have hs : s = b := congrArg Prod.snd heq
          rw [hs]
        · have hin : cat ∈ List.map Prod.fst ps := List.mem_map.mpr ⟨(cat, s), hmem', rfl⟩
          rw [← hp] at hin
          exact absurd hin hnk
    · have h1 : (decide (a = cat)) = false := by simp [hp]
      have hl : lookupScore ((a, b) :: ps) cat = lookupScore ps cat := by
        simp [lookupScore, List.find?, h1]
      rw [hl, ih hnd]
      constructor
      · intro hm
        exact List.mem_cons_of_mem _ hm
      · intro hm
        rcases List.mem_cons.mp hm with heq | hm'
        · exact absurd (congrArg Prod.fst heq.symm) hp
        · exact hm'

theorem foldl_max_spec (ps : List (String × ℚ)) : ∀ p : String × ℚ,
    (ps.foldl (fun best q => if best.2 < q.2 then q else best) p) ∈ p :: ps ∧
    p.2 ≤ (ps.foldl (fun best q => if best.2 < q.2 then q else best) p).2 ∧
    ∀ q ∈ ps, q.2 ≤ (ps.foldl (fun best q => if best.2 < q.2 then q else best) p).2 := by
  induction ps with
  | nil =>
    intro p
    exact ⟨List.mem_cons_self _ _, le_refl _, by intro q hq; simp at hq⟩
  | cons q qs ih =>
    intro p
    simp only [List.foldl_cons]
    obtain ⟨hmem, hle, hall⟩ := ih (if p.2 < q.2 then q else p)
    have hstep_p : p.2 ≤ (if p.2 < q.2 then q else p).2 := by
      by_cases h : p.2 < q.2
      · simp [h]; exact le_of_lt h
      · simp [h]
    have hstep_q : q.2 ≤ (if p.2 < q.2 then q else p).2 := by
      by_cases h : p.2 < q.2
      · simp [h]
      · simp [h]; exact le_of_not_lt h
    refine ⟨?_, le_trans hstep_p hle, ?_⟩
    · rcases List.mem_cons.mp hmem with heq | hmem'
      · by_cases h : p.2 < q.2
        · rw [heq]; simp [h]
        · rw [heq]; simp [h]
      · exact List.mem_cons_of_mem _ (List.mem_cons_of_mem _ hmem')
    · intro r hr
      rcases List.mem_cons.mp hr with heq | hmem'
      · rw [heq]
        exact le_trans hstep_q hle
      · exact hall r hmem'

theorem argmaxFirst_spec (l : List (String × ℚ)) (m : String × ℚ)
    (h : argmaxFirst l = some m) : m ∈ l ∧ ∀ p ∈ l, p.2 ≤ m.2 := by
  match l with
  | [] => simp [argmaxFirst] at h
  | p :: ps =>
    have hm : m = ps.foldl (fun best q => if best.2 < q.2 then q else best) p := by
      have := h
      simp only [argmaxFirst] at this
      exact (Option.some.inj this).symm
    obtain ⟨hmem, hle, hall⟩ := foldl_max_spec ps p
    subst hm
    refine ⟨hmem, ?_⟩
    intro q hq
    rcases List.mem_cons.mp hq with heq | hmem'
    · rw [heq]; exact hle
    · exact hall q hmem'

theorem argmaxFirst_eq_none_iff (l : List (String × ℚ)) :
    argmaxFirst l = none ↔ l = [] := by
  cases l with
  | nil => simp [argmaxFirst]
  | cons p ps => simp [argmaxFirst]

theorem arbitrate_nil : arbitrate [] = ("Unknown", 0, []) := rfl

theorem buildScoreboard_ne_nil (votes : List Vote) (hne : votes ≠ []) :
    buildScoreboard votes ≠ [] := by
  match votes with
  | [] => exact absurd rfl hne
  | v :: vs =>
    intro hsb
    have hl := lookupScore_buildScoreboard (v :: vs) v.2.1
    have hany : ((v :: vs).any fun w => decide (w.2.1 = v.2.1)) = true := by
      simp [List.any_cons]
    rw [hany] at hl
    simp only [if_pos rfl] at hl
    rw [hsb] at hl
    simp [lookupScore] at hl

theorem arbitrate_cons_eq (votes : List Vote) (hne : votes ≠ []) :
    ∃ m, argmaxFirst (buildScoreboard votes) = some m ∧
      arbitrate votes = (m.1, min m.2 1, buildScoreboard votes) := by
  have hsb : buildScoreboard votes ≠ [] := buildScoreboard_ne_nil votes hne
  cases hmax : argmaxFirst (buildScoreboard votes) with
  | none => exact absurd ((argmaxFirst_eq_none_iff _).mp hmax) hsb
  | some m =>
    refine ⟨m, rfl, ?_⟩
    have hv : votes.isEmpty = false := by
      cases votes with
      | nil => exact absurd rfl hne
      | cons v vs => rfl
    simp only [arbitrate, hv, Bool.false_eq_true, if_false, hmax]

/-- Every scoreboard key is the category of some vote. -/
theorem scoreboard_keys_are_vote_cats (votes : List Vote) (cat : String) (s : ℚ)
    (h : (cat, s) ∈ buildScoreboard votes) : ∃ v ∈ votes, v.2.1 = cat := by
  have hl : lookupScore (buildScoreboard votes) cat = some s :=
    (lookupScore_eq_some_iff_mem _ (buildScoreboard_keys_nodup votes) cat s).mpr h
  rw [lookupScore_buildScoreboard] at hl
  by_cases hany : (votes.any fun v => decide (v.2.1 = cat)) = true
  · rw [List.any_eq_true] at hany
    obtain ⟨v, hv, hvc⟩ := hany
    exact ⟨v, hv, by simpa using hvc⟩
  · rw [if_neg hany] at hl
    exact absurd hl (by simp)

/-- Every vote's category is a scoreboard key, with the summed score as value. -/
theorem vote_cats_in_scoreboard (votes : List Vote) (v : Vote) (hv : v ∈ votes) :
    (v.2.1, scoreOf votes v.2.1) ∈ buildScoreboard votes := by
  have hany : (votes.any fun w => decide (w.2.1 = v.2.1)) = true := by
    rw [List.any_eq_true]
    exact ⟨v, hv, by simp⟩
  have hl := lookupScore_buildScoreboard votes v.2.1
  rw [hany, if_pos rfl] at hl
  exact (lookupScore_eq_some_iff_mem _ (buildScoreboard_keys_nodup votes) _ _).mp hl

/-- Every scoreboard entry's value is the weighted score sum of its category. -/
theorem scoreboard_entry_eq_scoreOf (votes : List Vote) (cat : String) (s : ℚ)
    (h : (cat, s) ∈ buildScoreboard votes) : s = scoreOf votes cat := by
  have hl : lookupScore (buildScoreboard votes) cat = some s :=
    (lookupScore_eq_some_iff_mem _ (buildScoreboard_keys_nodup votes) cat s).mpr h
  rw [lookupScore_buildScoreboard] at hl
  by_cases hany : (votes.any fun v => decide (v.2.1 = cat)) = true
  · rw [if_pos hany] at hl
    exact (Option.some.inj hl).symm
  · rw [if_neg hany] at hl
    exact absurd hl (by simp)

/-- If every vote's category differs from "Unknown" and the vote list is non-empty,
the arbitration winner differs from "Unknown". -/
theorem arbitrate_winner_ne_unknown (votes : List Vote) (hne : votes ≠ [])
    (hall : ∀ v ∈ votes, v.2.1 ≠ "Unknown") : (arbitrate votes).1 ≠ "Unknown" := by
  obtain ⟨m, hmax, heq⟩ := arbitrate_cons_eq votes hne
  obtain ⟨hmem, _⟩ := argmaxFirst_spec _ m hmax
  have hcat : ∃ v ∈ votes, v.2.1 = m.1 :=
    scoreboard_keys_are_vote_cats votes m.1 m.2 (by simpa using hmem)
  obtain ⟨v, hv, hvc⟩ := hcat
  rw [heq]
  simp only
  rw [← hvc]
  exact hall v hv

/-- Result record of `process_file` (pipeline.py 88-97), restricted to the fields
driven by voting, plus a flag recording whether `self.nli_voter.vote` was called
(the call site at pipeline.py line 76). -/
structure ProcResult where
  category : String
  confidence : ℚ
  method : String
  votes : List Vote
  nliInvoked : Bool
deriving DecidableEq, Repr

/-- pipeline.py 72: `NLI_THRESHOLD = 0.60`. -/
def NLI_THRESHOLD : ℚ := 60 / 100

/-- The fast-voting collection loop (pipeline.py 53-63): each fast voter yields
`none` when `future.result()` raised (the caught-and-logged case) and
`some (category, confidence)` otherwise; only non-"Unknown" categories are kept. -/
def collectVotes (fastResults : List (VoterId × Option (String × ℚ))) : List Vote :=
  fastResults.filterMap (fun r =>
    match r.2 with
    | none => none
    | some (cat, conf) => if cat ≠ "Unknown" then some (r.1, cat, conf) else none)

/-- Steps 2-4 of `VotingEngine.process_file` (pipeline.py 52-97): fast voting,
arbitration, and the NLI fallback with re-arbitration.  `nliResult` is what
`self.nli_voter.vote(context)` would return if called. -/
def processVotes (fastResults : List (VoterId × Option (String × ℚ)))
    (text : String) (nliVoter : VoterId) (nliResult : String × ℚ) : ProcResult :=
  let votes := collectVotes fastResults
  let r := arbitrate votes
  if (r.1 = "Unknown" ∨ r.2.1 < NLI_THRESHOLD) ∧ text ≠ "" then
    if nliResult.1 ≠ "Unknown" then
      let votes2 := votes ++ [(nliVoter, nliResult.1, nliResult.2)]
      let r2 := arbitrate votes2
      ⟨r2.1, r2.2.1, "voting_ensemble_with_nli", votes2, true⟩
    else ⟨r.1, r.2.1, "voting_ensemble", votes, true⟩
  else ⟨r.1, r.2.1, "voting_ensemble", votes, false⟩

/-- `SessionVoter.vote` (voters.py 29-43): empty context distribution means no
opinion; otherwise the dominant category votes only when its share exceeds 0.5,
with confidence capped at 0.9. -/
def sessionVote (contextDist : List (String × ℚ)) : String × ℚ :=
  match argmaxFirst contextDist with
  | none => ("Unknown", 0)
  | some m => if 1/2 < m.2 then (m.1, min m.2 (9/10)) else ("Unknown", 0)

theorem collectVotes_ne_unknown (fastResults : List (VoterId × Option (String × ℚ))) :
    ∀ v ∈ collectVotes fastResults, v.2.1 ≠ "Unknown" := by
  intro v hv
  unfold collectVotes at hv
  rw [List.mem_filterMap] at hv
  obtain ⟨r, _, hr⟩ := hv
  cases hrr : r.2 with
  | none => rw [hrr] at hr; simp at hr
  | some p =>
    obtain ⟨cat, conf⟩ := p
    rw [hrr] at hr
    simp only at hr
    by_cases hcat : cat = "Unknown"
    · rw [if_neg (by simpa using hcat)] at hr
      exact absurd hr (by simp)
    · rw [if_pos (by simpa using hcat)] at hr
      have := Option.some.inj hr
      rw [← this]
      simpa using hcat

theorem processVotes_cat_conf (fastResults : List (VoterId × Option (String × ℚ)))
    (text : String) (nliVoter : VoterId) (nliResult : String × ℚ) :
    (processVotes fastResults text nliVoter nliResult).category =
      (arbitrate (processVotes fastResults text nliVoter nliResult).votes).1 ∧
    (processVotes fastResults text nliVoter nliResult).confidence =
      (arbitrate (processVotes fastResults text nliVoter nliResult).votes).2.1 := by
  simp only [processVotes]
  split
  · split
    · exact ⟨rfl, rfl⟩
    · exact ⟨rfl, rfl⟩
  · exact ⟨rfl, rfl⟩

theorem processVotes_votes_ne_unknown (fastResults : List (VoterId × Option (String × ℚ)))
    (text : String) (nliVoter : VoterId) (nliResult : String × ℚ) :
    ∀ v ∈ (processVotes fastResults text nliVoter nliResult).votes, v.2.1 ≠ "Unknown" := by
  intro v hv
  simp only [processVotes] at hv
  split at hv
  · split at hv
    · next hnli =>
      simp only at hv
      rcases List.mem_append.mp hv with h | h
      · exact collectVotes_ne_unknown _ v h
      · rw [List.mem_singleton] at h
        rw [h]
        exact hnli
    · exact collectVotes_ne_unknown _ v hv
  · exact collectVotes_ne_unknown _ v hv

/-- C1: Arbitration computes, for any list of votes, a scoreboard where each
category's score is the sum of `voter.weight * confidence` over the votes for
that category; the winner is the arg-max category of the scoreboard (first one
on ties, as Python's `max` over a dict) and the returned confidence is
`min(score[winner], 1.0)`; for the empty vote list it returns `("Unknown", 0.0)`. -/
theorem C1_arbitrate_correct (votes : List Vote) :
    arbitrate [] = ("Unknown", 0, []) ∧
    (votes ≠ [] →
      (arbitrate votes).2.2 = buildScoreboard votes ∧
      (∀ cat s, (cat, s) ∈ (arbitrate votes).2.2 → s = scoreOf votes cat) ∧
      (∀ cat, (∃ s, (cat, s) ∈ (arbitrate votes).2.2) ↔ ∃ v ∈ votes, v.2.1 = cat) ∧
      ∃ s, ((arbitrate votes).1, s) ∈ (arbitrate votes).2.2 ∧
        (∀ p ∈ (arbitrate votes).2.2, p.2 ≤ s) ∧
        (arbitrate votes).2.1 = min s 1) := by
  refine ⟨rfl, fun hne => ?_⟩
  obtain ⟨m, hmax, heq⟩ := arbitrate_cons_eq votes hne
  obtain ⟨hmem, hall⟩ := argmaxFirst_spec _ m hmax
  rw [heq]
  refine ⟨rfl, ?_, ?_, ?_⟩
  · intro cat s h
    exact scoreboard_entry_eq_scoreOf votes cat s h
  · intro cat
    constructor
    · rintro ⟨s, hs⟩
      exact scoreboard_keys_are_vote_cats votes cat s hs
    · rintro ⟨v, hv, hvc⟩
      refine ⟨scoreOf votes cat, ?_⟩
      rw [← hvc]
      exact vote_cats_in_scoreboard votes v hv
  · exact ⟨m.2, by simpa using hmem, hall, rfl⟩

theorem C1_arbitrate_correct_witness :
    ([((VoterId.mk "History" (4/5) : VoterId), ("Documents", (1/2 : ℚ)))] ≠ ([] : List Vote)) ∧
    (arbitrate [(VoterId.mk "History" (4/5), ("Documents", (1/2 : ℚ)))]).2.2 =
      buildScoreboard [(VoterId.mk "History" (4/5), ("Documents", (1/2 : ℚ)))] :=
  ⟨by decide,
   ((C1_arbitrate_correct [(VoterId.mk "History" (4/5), ("Documents", (1/2 : ℚ)))]).2
      (by decide)).1⟩

/-- C2: during `process_file`, the NLI voter is invoked iff (the first-round
winner is "Unknown" or the first-round confidence is strictly below 0.60) and the
extracted text is non-empty; when invoked with a non-"Unknown" NLI vote, exactly
that one vote is appended, arbitration is re-run on the extended list, and the
method tag becomes `"voting_ensemble_with_nli"`. -/
theorem C2_nli_escalation (fastResults : List (VoterId × Option (String × ℚ)))
    (text : String) (nliVoter : VoterId) (nliResult : String × ℚ) :
    ((processVotes fastResults text nliVoter nliResult).nliInvoked = true ↔
      (((arbitrate (collectVotes fastResults)).1 = "Unknown" ∨
        (arbitrate (collectVotes fastResults)).2.1 < NLI_THRESHOLD) ∧ text ≠ "")) ∧
    ((processVotes fastResults text nliVoter nliResult).nliInvoked = true →
      nliResult.1 ≠ "Unknown" →
      (processVotes fastResults text nliVoter nliResult).votes =
        collectVotes fastResults ++ [(nliVoter, nliResult.1, nliResult.2)] ∧
      (processVotes fastResults text nliVoter nliResult).category =
        (arbitrate (collectVotes fastResults ++ [(nliVoter, nliResult.1, nliResult.2)])).1 ∧
      (processVotes fastResults text nliVoter nliResult).confidence =
        (arbitrate (collectVotes fastResults ++ [(nliVoter, nliResult.1, nliResult.2)])).2.1 ∧
      (processVotes fastResults text nliVoter nliResult).method =
        "voting_ensemble_with_nli") ∧
    ((processVotes fastResults text nliVoter nliResult).nliInvoked = true →
      nliResult.1 = "Unknown" →
      (processVotes fastResults text nliVoter nliResult).votes = collectVotes fastResults ∧
      (processVotes fastResults text nliVoter nliResult).method = "voting_ensemble") ∧
    ((processVotes fastResults text nliVoter nliResult).nliInvoked = false →
      (processVotes fastResults text nliVoter nliResult).votes = collectVotes fastResults ∧
      (processVotes fastResults text nliVoter nliResult).category =
        (arbitrate (collectVotes fastResults)).1 ∧
      (processVotes fastResults text nliVoter nliResult).confidence =
        (arbitrate (collectVotes fastResults)).2.1 ∧
      (processVotes fastResults text nliVoter nliResult).method = "voting_ensemble") := by
  simp only [processVotes]
  split
  · next hcond =>
    split
    · next hnli =>
      refine ⟨by simp [hcond], ?_, ?_, ?_⟩
      · intro _ _
        exact ⟨rfl, rfl, rfl, rfl⟩
      · intro _ hun
        exact absurd hun hnli
      · intro hfalse
        simp at hfalse
    · next hnli =>
      have hun : nliResult.1 = "Unknown" := not_not.mp hnli
      refine ⟨by simp [hcond], ?_, ?_, ?_⟩
      · intro _ hne
        exact absurd hun hne
      · intro _ _
        exact ⟨rfl, rfl⟩
      · intro hfalse
        simp at hfalse
  · next hcond =>
    refine ⟨by simp [hcond], ?_, ?_, ?_⟩
    · intro htrue
      simp at htrue
    · intro htrue
      simp at htrue
    · intro _
      exact ⟨rfl, rfl, rfl, rfl⟩

theorem C2_nli_escalation_witness :
    (processVotes [] "x" (VoterId.mk "NLI" (9/10)) ("Documents", 85/100)).votes =
      collectVotes [] ++ [(VoterId.mk "NLI" (9/10), "Documents", 85/100)] ∧
    (processVotes [] "x" (VoterId.mk "NLI" (9/10)) ("Documents", 85/100)).category =
      (arbitrate (collectVotes [] ++ [(VoterId.mk "NLI" (9/10), "Documents", 85/100)])).1 ∧
    (processVotes [] "x" (VoterId.mk "NLI" (9/10)) ("Documents", 85/100)).confidence =
      (arbitrate (collectVotes [] ++ [(VoterId.mk "NLI" (9/10), "Documents", 85/100)])).2.1 ∧
    (processVotes [] "x" (VoterId.mk "NLI" (9/10)) ("Documents", 85/100)).method =
      "voting_ensemble_with_nli" :=
  (C2_nli_escalation [] "x" (VoterId.mk "NLI" (9/10)) ("Documents", 85/100)).2.1
    (by decide) (by decide)

/-- C10: `process_file` returns "Unknown" iff no voter (the NLI voter after
escalation included) produced a non-"Unknown" vote; in that case the confidence
is exactly 0 and the votes list is empty; only non-"Unknown" votes ever enter the
scoreboard, so a non-empty vote list always yields a non-"Unknown" winner. -/
theorem C10_unknown_semantics (fastResults : List (VoterId × Option (String × ℚ)))
    (text : String) (nliVoter : VoterId) (nliResult : String × ℚ) :
    ((processVotes fastResults text nliVoter nliResult).category = "Unknown" ↔
      (processVotes fastResults text nliVoter nliResult).votes = []) ∧
    ((processVotes fastResults text nliVoter nliResult).category = "Unknown" →
      (processVotes fastResults text nliVoter nliResult).confidence = 0 ∧
      (processVotes fastResults text nliVoter nliResult).votes = []) ∧
    (∀ v ∈ (processVotes fastResults text nliVoter nliResult).votes, v.2.1 ≠ "Unknown") ∧
    ((processVotes fastResults text nliVoter nliResult).votes ≠ [] →
      (processVotes fastResults text nliVoter nliResult).category ≠ "Unknown") ∧
    ((processVotes fastResults text nliVoter nliResult).votes = [] ↔
      (collectVotes fastResults = [] ∧
        ((processVotes fastResults text nliVoter nliResult).nliInvoked = false ∨
          nliResult.1 = "Unknown"))) := by
  obtain ⟨hcat, hconf⟩ := processVotes_cat_conf fastResults text nliVoter nliResult
  have hall := processVotes_votes_ne_unknown fastResults text nliVoter nliResult
  have hne_of_votes : (processVotes fastResults text nliVoter nliResult).votes ≠ [] →
      (processVotes fastResults text nliVoter nliResult).category ≠ "Unknown" := by
    intro hne
    rw [hcat]
    exact arbitrate_winner_ne_unknown _ hne hall
  have hiff : (processVotes fastResults text nliVoter nliResult).category = "Unknown" ↔
      (processVotes fastResults text nliVoter nliResult).votes = [] := by
    constructor
    · intro hu
      by_contra hvne
      exact hne_of_votes hvne hu
    · intro hv
      rw [hcat, hv]
      rfl
  refine ⟨hiff, ?_, hall, hne_of_votes, ?_⟩
  · intro hu
    have hv := hiff.mp hu
    refine ⟨?_, hv⟩
    rw [hconf, hv]
    rfl
  · simp only [processVotes]
    split
    · next hcond =>
      split
      · next hnli =>
        simp [hnli]
      · next hnli =>
        have hun : nliResult.1 = "Unknown" := not_not.mp hnli
        simp [hun]
    · next hcond =>
      simp

theorem C10_unknown_semantics_witness :
    (processVotes [] "" (VoterId.mk "NLI" (9/10)) ("Unknown", 0)).confidence = 0 ∧
    (processVotes [] "" (VoterId.mk "NLI" (9/10)) ("Unknown", 0)).votes = [] :=
  (C10_unknown_semantics [] "" (VoterId.mk "NLI" (9/10)) ("Unknown", 0)).2.1 (by decide)

/-- C9: `SessionVoter.vote` returns `("Unknown", 0.0)` unless the dominant (most
frequent) recent category's share strictly exceeds 0.5; when it votes it returns
that category with confidence `min(share, 0.9)`, hence never above 0.9. -/
theorem C9_session_voter (dist : List (String × ℚ)) :
    (sessionVote dist).2 ≤ 9/10 ∧
    sessionVote [] = ("Unknown", 0) ∧
    (argmaxFirst dist = none → dist = []) ∧
    (∀ m, argmaxFirst dist = some m →
      (m ∈ dist ∧ ∀ p ∈ dist, p.2 ≤ m.2) ∧
      (m.2 ≤ 1/2 → sessionVote dist = ("Unknown", 0)) ∧
      (1/2 < m.2 → sessionVote dist = (m.1, min m.2 (9/10)))) := by
  refine ⟨?_, rfl, (argmaxFirst_eq_none_iff dist).mp, ?_⟩
  · unfold sessionVote
    cases h : argmaxFirst dist with
    | none => norm_num
    | some m =>
      by_cases hlt : 1/2 < m.2
      · simp only [if_pos hlt]
        exact min_le_right _ _
      · simp only [if_neg hlt]
        norm_num
  · intro m hm
    refine ⟨argmaxFirst_spec dist m hm, ?_, ?_⟩
    · intro hle
      unfold sessionVote
      rw [hm]
      exact if_neg (not_lt.mpr hle)
    · intro hlt
      unfold sessionVote
      rw [hm]
      exact if_pos hlt

theorem C9_session_voter_witness :
    sessionVote [("Documents", (3/5 : ℚ)), ("Images", (2/5 : ℚ))] =
      ("Documents", min (3/5 : ℚ) (9/10)) :=
  ((C9_session_voter [("Documents", (3/5 : ℚ)), ("Images", (2/5 : ℚ))]).2.2.2
    ("Documents", (3/5 : ℚ))
    (by simp only [argmaxFirst, List.foldl_cons, List.foldl_nil]
        rw [if_neg (by norm_num)])).2.2 (by norm_num)

/-! ## Folder clusters (`src/core/models.py`) -/

/-- numpy embedding vectors, embedded as rational-valued sequences with numpy's
pointwise arithmetic (the dimension plays no role in the centroid algebra). -/
abbrev Emb := ℕ → ℚ

/-- models.py 19: `MIN_FILES_FOR_CENTROID = 3`. -/
def MIN_FILES_FOR_CENTROID : ℕ := 3

/-- `FolderCluster` (models.py 21-29). -/
structure FolderCluster where
  path : String
  centroid : Option Emb
  name_embedding : Option Emb
  n_files : ℕ

/-- `FolderCluster.update_centroid` (models.py 31-39): first update installs the
embedding as centroid with `n_files = 1`; later updates apply the running-average
formula `centroid + (new - centroid) / (n_files + 1)` after incrementing. -/
def FolderCluster.update_centroid (c : FolderCluster) (e : Emb) : FolderCluster :=
  match c.centroid with
  | none => { c with centroid := some e, n_files := 1 }
  | some m =>
    let n := c.n_files + 1
    { c with n_files := n, centroid := some (fun i => m i + (e i - m i) / (n : ℚ)) }

/-- `FolderCluster.get_effective_embedding` (models.py 41-45). -/
def FolderCluster.get_effective_embedding (c : FolderCluster) : Option Emb :=
  match c.centroid with
  | some m => if MIN_FILES_FOR_CENTROID ≤ c.n_files then some m else c.name_embedding
  | none => c.name_embedding

/-- A cluster as constructed with a name embedding only (models.py 24-29 with the
default arguments `centroid=None, n_files=0`). -/
def freshCluster (p : String) (ne : Emb) : FolderCluster :=
  { path := p, centroid := none, name_embedding := some ne, n_files := 0 }

/-- A sequence of `update_centroid` calls. -/
def applyUpdates (c : FolderCluster) (l : List Emb) : FolderCluster :=
  l.foldl FolderCluster.update_centroid c

/-- Pointwise arithmetic mean of a list of vectors. -/
def vecMean (l : List Emb) : Emb :=
  fun i => (l.map (fun e => e i)).sum / (l.length : ℚ)

theorem applyUpdates_some (l : List Emb) : ∀ (c : FolderCluster) (m : Emb) (n : ℕ),
    c.centroid = some m → c.n_files = n → 1 ≤ n →
    applyUpdates c l =
      { c with
        centroid := some (fun i => ((n : ℚ) * m i + (l.map (fun e => e i)).sum) /
          ((n : ℚ) + (l.length : ℚ))),
        n_files := n + l.length } := by
  induction l with
  | nil =>
    intro c m n hc hn hn1
    obtain ⟨p, cent, ne, nf⟩ := c
    simp only at hc hn
    subst hc
    subst hn
    simp only [applyUpdates, List.foldl_nil, List.map_nil, List.sum_nil, List.length_nil,
      Nat.cast_zero, add_zero, Nat.add_zero, FolderCluster.mk.injEq, true_and, and_true]
    have hn0 : (nf : ℚ) ≠ 0 := Nat.cast_ne_zero.mpr (by omega)
    refine congrArg some (funext fun i => ?_)
    field_simp
  | cons e t ih =>
    intro c m n hc hn hn1
    obtain ⟨p, cent, ne, nf⟩ := c
    simp only at hc hn
    subst hc
    subst hn
    have hstep : applyUpdates ⟨p, some m, ne, nf⟩ (e :: t) =
        applyUpdates ⟨p, some (fun i => m i + (e i - m i) / ((nf : ℚ) + 1)), ne, nf + 1⟩ t := by
      simp only [applyUpdates, List.foldl_cons, FolderCluster.update_centroid]
      norm_num
    rw [hstep, ih _ _ (nf + 1) rfl rfl (Nat.le_add_left 1 nf)]
    simp only [FolderCluster.mk.injEq, true_and, and_true]
    have hnf1 : ((nf : ℚ) + 1) ≠ 0 := by positivity
    constructor
    · refine congrArg some (funext fun i => ?_)
      simp only [List.map_cons, List.sum_cons, List.length_cons]
      push_cast
      field_simp
      ring
    · simp only [List.length_cons]
      omega

theorem applyUpdates_fresh (p : String) (ne : Emb) (e : Emb) (t : List Emb) :
    applyUpdates (freshCluster p ne) (e :: t) =
      { path := p, centroid := some (vecMean (e :: t)), name_embedding := some ne,
        n_files := (e :: t).length } := by
  have hstep : applyUpdates (freshCluster p ne) (e :: t) =
      applyUpdates ⟨p, some e, some ne, 1⟩ t := by
    simp only [applyUpdates, List.foldl_cons, freshCluster, FolderCluster.update_centroid]
  rw [hstep, applyUpdates_some t _ e 1 rfl rfl (le_refl 1)]
  simp only [FolderCluster.mk.injEq, true_and, and_true, List.length_cons]
  constructor
  · refine congrArg some (funext fun i => ?_)
    simp only [vecMean, List.map_cons, List.sum_cons, List.length_cons]
    push_cast
    ring_nf
  · omega

/-- C3: starting from a cluster with no centroid and a name embedding, after `k`
`update_centroid` calls `get_effective_embedding()` returns the name embedding
when `k < MIN_FILES_FOR_CENTROID (= 3)` and the running-average centroid when
`k ≥ 3`. -/
theorem C3_effective_embedding (p : String) (ne : Emb) (l : List Emb) :
    (l.length < MIN_FILES_FOR_CENTROID →
      (applyUpdates (freshCluster p ne) l).get_effective_embedding = some ne) ∧
    (MIN_FILES_FOR_CENTROID ≤ l.length →
      (applyUpdates (freshCluster p ne) l).get_effective_embedding =
        (applyUpdates (freshCluster p ne) l).centroid ∧
      (applyUpdates (freshCluster p ne) l).centroid = some (vecMean l)) := by
  cases l with
  | nil =>
    refine ⟨fun _ => rfl, fun h => absurd h (by simp [MIN_FILES_FOR_CENTROID])⟩
  | cons e t =>
    rw [applyUpdates_fresh]
    constructor
    · intro hlt
      simp only [List.length_cons] at hlt
      simp only [FolderCluster.get_effective_embedding, List.length_cons]
      rw [if_neg (by omega)]
    · intro hge
      simp only [List.length_cons] at hge
      simp only [FolderCluster.get_effective_embedding, List.length_cons]
      rw [if_pos (by omega)]
      exact ⟨rfl, trivial⟩

theorem C3_effective_embedding_witness :
    (applyUpdates (freshCluster "dl" (fun _ => 0))
        [fun _ => (1 : ℚ), fun _ => 1, fun _ => 1]).get_effective_embedding =
      (applyUpdates (freshCluster "dl" (fun _ => 0))
        [fun _ => (1 : ℚ), fun _ => 1, fun _ => 1]).centroid ∧
    (applyUpdates (freshCluster "dl" (fun _ => 0))
        [fun _ => (1 : ℚ), fun _ => 1, fun _ => 1]).centroid =
      some (vecMean [fun _ => (1 : ℚ), fun _ => 1, fun _ => 1]) :=
  (C3_effective_embedding "dl" (fun _ => 0)
    [fun _ => (1 : ℚ), fun _ => 1, fun _ => 1]).2 (by norm_num [MIN_FILES_FOR_CENTROID])

/-- C4: for any non-empty sequence of embeddings applied via `update_centroid` to
a cluster with no prior centroid, the centroid is exactly the arithmetic mean of
the sequence (over exact arithmetic), `n_files` is the number of updates, and the
final state is invariant under permuting the update order. -/
theorem C4_centroid_is_mean (p : String) (ne : Emb) (l l' : List Emb)
    (hl : l ≠ []) (hperm : l.Perm l') :
    (applyUpdates (freshCluster p ne) l).centroid = some (vecMean l) ∧
    (applyUpdates (freshCluster p ne) l).n_files = l.length ∧
    applyUpdates (freshCluster p ne) l = applyUpdates (freshCluster p ne) l' := by
  obtain ⟨e, t, rfl⟩ := List.exists_cons_of_ne_nil hl
  have hl' : l' ≠ [] := by
    intro h
    subst h
    exact absurd hperm.eq_nil (List.cons_ne_nil e t)
  obtain ⟨e', t', rfl⟩ := List.exists_cons_of_ne_nil hl'
  have hmean : vecMean (e :: t) = vecMean (e' :: t') := by
    funext i
    unfold vecMean
    rw [hperm.length_eq, (hperm.map (fun v => v i)).sum_eq]
  refine ⟨?_, ?_, ?_⟩
  · rw [applyUpdates_fresh]
  · rw [applyUpdates_fresh]
  · rw [applyUpdates_fresh, applyUpdates_fresh, hmean, hperm.length_eq]

theorem C4_centroid_is_mean_witness :
    (applyUpdates (freshCluster "dl" (fun _ => 0))
        [fun _ => (1 : ℚ), fun _ => 3]).centroid =
      some (vecMean [fun _ => (1 : ℚ), fun _ => 3]) ∧
    (applyUpdates (freshCluster "dl" (fun _ => 0))
        [fun _ => (1 : ℚ), fun _ => 3]).n_files =
      List.length ([fun _ => (1 : ℚ), fun _ => 3] : List Emb) ∧
    applyUpdates (freshCluster "dl" (fun _ => 0)) [fun _ => (1 : ℚ), fun _ => 3] =
      applyUpdates (freshCluster "dl" (fun _ => 0)) [fun _ => (3 : ℚ), fun _ => 1] :=
  C4_centroid_is_mean "dl" (fun _ => 0) [fun _ => (1 : ℚ), fun _ => 3]
    [fun _ => (3 : ℚ), fun _ => 1] (List.cons_ne_nil _ _)
    (List.Perm.swap (fun _ => (3 : ℚ)) (fun _ => (1 : ℚ)) [])

/-! ## Semantic memory (`src/services/memory.py`) -/

/-- One stored example (memory.py 21): `{"text": str, "category": str,
"embedding": List[float]}`. -/
structure MemEntry where
  text : String
  category : String
  embedding : List ℚ
deriving DecidableEq, Repr

/-- `SemanticMemory._rebuild_index` (memory.py 71-104) restricted to its effect on
`self.data`: entries failing the validity test (memory.py 83: a non-empty numeric
list — in the typed embedding, non-emptiness) are pruned and the
`clean_data[: self.max_entries]` cap is enforced. -/
def rebuildData (maxEntries : ℕ) (data : List MemEntry) : List MemEntry :=
  (data.filter (fun en => !en.embedding.isEmpty)).take maxEntries

/-- `SemanticMemory.learn` (memory.py 106-134) acting on `self.data`: duplicate
`(text, category)` pairs return early; otherwise the text is truncated to
`max_text_chars`, the oldest entry is dropped when at capacity
(`self.data = self.data[1:]`), the new entry is appended, and `_rebuild_index`
runs. -/
def learn (maxEntries maxChars : ℕ) (data : List MemEntry) (text category : String)
    (embedding : List ℚ) : List MemEntry :=
  if data.any (fun en => en.text == text && en.category == category) then data
  else
    let t := text.take maxChars
    let d1 := if maxEntries ≤ data.length then data.drop 1 else data
    rebuildData maxEntries (d1 ++ [⟨t, category, embedding⟩])

/-- A whole sequence of `learn` calls starting from the empty store. -/
def learnAll (maxEntries maxChars : ℕ) (calls : List (String × String × List ℚ)) :
    List MemEntry :=
  calls.foldl (fun data c => learn maxEntries maxChars data c.1 c.2.1 c.2.2) []

theorem rebuildData_length_le (maxEntries : ℕ) (data : List MemEntry) :
    (rebuildData maxEntries data).length ≤ maxEntries := by
  unfold rebuildData
  rw [List.length_take]
  exact min_le_left _ _

theorem learn_length_le (maxEntries maxChars : ℕ) (data : List MemEntry)
    (text category : String) (embedding : List ℚ) (h : data.length ≤ maxEntries) :
    (learn maxEntries maxChars data text category embedding).length ≤ maxEntries := by
  unfold learn
  split
  · exact h
  · exact rebuildData_length_le _ _

theorem learnAll_length_le (maxEntries maxChars : ℕ)
    (calls : List (String × String × List ℚ)) :
    (learnAll maxEntries maxChars calls).length ≤ maxEntries := by
  unfold learnAll
  suffices h : ∀ data : List MemEntry, data.length ≤ maxEntries →
      (calls.foldl (fun data c => learn maxEntries maxChars data c.1 c.2.1 c.2.2)
        data).length ≤ maxEntries by
    exact h [] (by simp)
  induction calls with
  | nil => intro data hd; simpa using hd
  | cons c cs ih =>
    intro data hd
    exact ih _ (learn_length_le maxEntries maxChars data c.1 c.2.1 c.2.2 hd)

/-- C8: semantic memory is capacity-bounded FIFO: over every sequence of `learn`
calls the entry count never exceeds `max_entries`, one `learn` preserves the cap,
and a `learn` that appends while the store is at capacity evicts exactly the
oldest entry. -/
theorem C8_memory_fifo (maxEntries maxChars : ℕ)
    (calls : List (String × String × List ℚ)) (data : List MemEntry)
    (text category : String) (embedding : List ℚ) :
    (learnAll maxEntries maxChars calls).length ≤ maxEntries ∧
    (data.length ≤ maxEntries →
      (learn maxEntries maxChars data text category embedding).length ≤ maxEntries) ∧
    (data.length = maxEntries → 1 ≤ maxEntries →
      (∀ en ∈ data, en.embedding ≠ []) → embedding ≠ [] →
      (data.any (fun en => en.text == text && en.category == category)) = false →
      learn maxEntries maxChars data text category embedding =
        data.drop 1 ++ [⟨text.take maxChars, category, embedding⟩]) := by
  refine ⟨learnAll_length_le maxEntries maxChars calls,
    learn_length_le maxEntries maxChars data text category embedding, ?_⟩
  intro hlen hpos hvalid hemb hdup
  unfold learn
  rw [if_neg (by rw [hdup]; simp)]
  rw [if_pos (le_of_eq hlen.symm)]
  unfold rebuildData
  have hfilter : (data.drop 1 ++ [(⟨text.take maxChars, category, embedding⟩ : MemEntry)]).filter
      (fun en => !en.embedding.isEmpty) =
      data.drop 1 ++ [⟨text.take maxChars, category, embedding⟩] := by
    rw [List.filter_eq_self]
    intro en hen
    rcases List.mem_append.mp hen with h | h
    · have := hvalid en (List.mem_of_mem_drop h)
      simpa [List.isEmpty_iff] using this
    · rw [List.mem_singleton] at h
      subst h
      simpa [List.isEmpty_iff] using hemb
  simp only [hfilter]
  apply List.take_of_length_le
  rw [List.length_append, List.length_drop, hlen]
  simp
  omega

theorem C8_memory_fifo_witness :
    learn 2 160 [⟨"a", "X", [1]⟩, ⟨"b", "Y", [1]⟩] "c" "Z" [2] =
      List.drop 1 [(⟨"a", "X", [1]⟩ : MemEntry), ⟨"b", "Y", [1]⟩] ++
        [⟨"c".take 160, "Z", [2]⟩] :=
  (C8_memory_fifo 2 160 [] [⟨"a", "X", [1]⟩, ⟨"b", "Y", [1]⟩] "c" "Z" [2]).2.2
    (by decide) (by decide) (by decide) (by decide) (by decide)

/-! ## Collision-free destination names (`executor.py` 37-54, `execution.py` 107-121)

The Python code compares path strings against the filesystem, so the embedding
works on `String` and needs injectivity of the decimal rendering `Nat.repr`
used by the f-string `f"{stem}_v{counter}{suffix}"`. -/

theorem digitChar_injOn : ∀ a < 10, ∀ b < 10, Nat.digitChar a = Nat.digitChar b → a = b := by
  decide

theorem toDigitsCore_eq_digits (f : ℕ) : ∀ (n : ℕ) (acc : List Char), n < f → 0 < n →
    Nat.toDigitsCore 10 f n acc =
      ((Nat.digits 10 n).reverse.map Nat.digitChar) ++ acc := by
  induction f with
  | zero =>
    intro n acc hnf _
    omega
  | succ f ih =>
    intro n acc hnf hn
    have hd : Nat.digits 10 n = n % 10 :: Nat.digits 10 (n / 10) :=
      Nat.digits_def' (by norm_num) hn
    by_cases h10 : n / 10 = 0
    · have hstep : Nat.toDigitsCore 10 (f + 1) n acc = Nat.digitChar (n % 10) :: acc := by
        simp only [Nat.toDigitsCore, h10, if_pos]
      rw [hstep, hd, h10, Nat.digits_zero]
      simp
    · have hstep : Nat.toDigitsCore 10 (f + 1) n acc =
          Nat.toDigitsCore 10 f (n / 10) (Nat.digitChar (n % 10) :: acc) := by
        simp only [Nat.toDigitsCore, h10, if_neg]
        simp [h10]
      have hdiv : n / 10 < n := Nat.div_lt_self hn (by norm_num)
      rw [hstep, ih (n / 10) (Nat.digitChar (n % 10) :: acc) (by omega)
        (Nat.pos_of_ne_zero h10)]
      rw [hd]
      simp

theorem toDigits_eq_digits (n : ℕ) :
    Nat.toDigits 10 n =
      (if n = 0 then [0] else (Nat.digits 10 n).reverse).map Nat.digitChar := by
  by_cases h : n = 0
  · subst h
    rfl
  · rw [if_neg h]
    unfold Nat.toDigits
    rw [toDigitsCore_eq_digits (n + 1) n [] (by omega) (Nat.pos_of_ne_zero h),
      List.append_nil]

theorem digitsRepr_lt_base (n : ℕ) :
    ∀ d ∈ (if n = 0 then [0] else (Nat.digits 10 n).reverse), d < 10 := by
  intro d hd
  by_cases h : n = 0
  · rw [if_pos h] at hd
    rw [List.mem_singleton] at hd
    omega
  · rw [if_neg h, List.mem_reverse] at hd
    exact Nat.digits_lt_base (by norm_num) hd

theorem map_digitChar_inj (l1 : List ℕ) : ∀ l2 : List ℕ,
    (∀ d ∈ l1, d < 10) → (∀ d ∈ l2, d < 10) →
    l1.map Nat.digitChar = l2.map Nat.digitChar → l1 = l2 := by
  induction l1 with
  | nil =>
    intro l2 _ _ h
    cases l2 with
    | nil => rfl
    | cons b t2 => simp at h
  | cons a t ih =>
    intro l2 h1 h2 h
    cases l2 with
    | nil => simp at h
    | cons b t2 =>
      simp only [List.map_cons, List.cons.injEq] at h
      obtain ⟨hab, ht⟩ := h
      have ha : a < 10 := h1 a (List.mem_cons_self _ _)
      have hb : b < 10 := h2 b (List.mem_cons_self _ _)
      rw [digitChar_injOn a ha b hb hab,
        ih t2 (fun d hd => h1 d (List.mem_cons_of_mem _ hd))
          (fun d hd => h2 d (List.mem_cons_of_mem _ hd)) ht]

theorem digitsRepr_inj (m n : ℕ)
    (h : (if m = 0 then [0] else (Nat.digits 10 m).reverse) =
      (if n = 0 then [0] else (Nat.digits 10 n).reverse)) : m = n := by
  have hof : ∀ k : ℕ, Nat.digits 10 k = [0] → k = 0 := by
    intro k hk
    have := Nat.ofDigits_digits 10 k
    rw [hk] at this
    simpa [Nat.ofDigits] using this.symm
  by_cases hm : m = 0 <;> by_cases hn : n = 0
  · rw [hm, hn]
  · rw [if_pos hm, if_neg hn] at h
    have : Nat.digits 10 n = [0] := by
      have := congrArg List.reverse h
      simpa using this.symm
    exact absurd (hof n this) hn
  · rw [if_neg hm, if_pos hn] at h
    have : Nat.digits 10 m = [0] := by
      have := congrArg List.reverse h
      simpa using this
    exact absurd (hof m this) hm
  · rw [if_neg hm, if_neg hn] at h
    have hdig : Nat.digits 10 m = Nat.digits 10 n := by
      have := congrArg List.reverse h
      simpa using this
    have := congrArg (Nat.ofDigits 10) hdig
    rwa [Nat.ofDigits_digits, Nat.ofDigits_digits] at this

theorem natRepr_injective : Function.Injective Nat.repr := by
  intro m n h
  have hd : Nat.toDigits 10 m = Nat.toDigits 10 n := congrArg String.data h
  rw [toDigits_eq_digits, toDigits_eq_digits] at hd
  exact digitsRepr_inj m n
    (map_digitChar_inj _ _ (digitsRepr_lt_base m) (digitsRepr_lt_base n) hd)

/-- A destination path as `pathlib` decomposes it for the collision loop:
`dest.parent`, `dest.stem`, `dest.suffix`. -/
structure DestPath where
  parent : String
  stem : String
  sfx : String
deriving DecidableEq, Repr

/-- The plain destination string `parent / (stem + suffix)`. -/
def DestPath.rendered (d : DestPath) : String :=
  d.parent ++ "/" ++ d.stem ++ d.sfx

/-- The versioned candidate `parent / f"{stem}_v{counter}{suffix}"` (executor.py 51,
execution.py 117). -/
def DestPath.versioned (d : DestPath) (k : ℕ) : String :=
  d.parent ++ "/" ++ d.stem ++ "_v" ++ Nat.repr k ++ d.sfx

theorem versioned_injective (d : DestPath) : Function.Injective d.versioned := by
  intro k1 k2 h
  unfold DestPath.versioned at h
  have hdata := congrArg String.data h
  simp only [String.data_append] at hdata
  have h1 := List.append_cancel_right hdata
  have h2 := List.append_cancel_left h1
  exact natRepr_injective (String.ext h2)

/-- The `while True:` search loop shared by `Executor._get_safe_dest`
(executor.py 50-54, counter starting at 2) and
`ExecutionService._resolve_collision` (execution.py 115-121, counter starting
at 1): return the first candidate not on the filesystem.  The unbounded loop is
embedded with explicit fuel; `existing.length + 1` attempts provably suffice. -/
def findFreeName (existing : List String) (f : ℕ → String) : ℕ → ℕ → Option String
  | 0, _ => none
  | fuel + 1, k =>
      if f k ∈ existing then findFreeName existing f fuel (k + 1) else some (f k)

/-- `Executor._get_safe_dest` (executor.py 37-54), over a filesystem modelled as
the list of existing path strings. -/
def get_safe_dest (existing : List String) (dest : DestPath) : Option String :=
  if dest.rendered ∈ existing then
    findFreeName existing dest.versioned (existing.length + 1) 2
  else some dest.rendered

/-- `ExecutionService._resolve_collision` (execution.py 107-121): identical loop
but the counter starts at 1, so the first fallback name is `stem_v1suffix`. -/
def resolve_collision (existing : List String) (dest : DestPath) : Option String :=
  if dest.rendered ∈ existing then
    findFreeName existing dest.versioned (existing.length + 1) 1
  else some dest.rendered

theorem findFreeName_spec (existing : List String) (f : ℕ → String) :
    ∀ (fuel start : ℕ) (r : String), findFreeName existing f fuel start = some r →
      ∃ k, start ≤ k ∧ r = f k ∧ f k ∉ existing ∧
        ∀ j, start ≤ j → j < k → f j ∈ existing := by
  intro fuel
  induction fuel with
  | zero =>
    intro start r h
    simp [findFreeName] at h
  | succ fuel ih =>
    intro start r h
    unfold findFreeName at h
    by_cases hin : f start ∈ existing
    · rw [if_pos hin] at h
      obtain ⟨k, hk1, hk2, hk3, hk4⟩ := ih (start + 1) r h
      refine ⟨k, by omega, hk2, hk3, ?_⟩
      intro j hj1 hj2
      by_cases hjs : j = start
      · rw [hjs]; exact hin
      · exact hk4 j (by omega) hj2
    · rw [if_neg hin] at h
      exact ⟨start, le_refl _, (Option.some.inj h).symm, hin,
        fun j hj1 hj2 => absurd (lt_of_le_of_lt hj1 hj2) (lt_irrefl start)⟩

theorem exists_free_candidate (existing : List String) (f : ℕ → String)
    (hinj : Function.Injective f) (start : ℕ) :
    ∃ i, i < existing.length + 1 ∧ f (start + i) ∉ existing := by
  by_contra hcon
  push_neg at hcon
  have hsub : ∀ c ∈ (List.range (existing.length + 1)).map (fun i => f (start + i)),
      c ∈ existing := by
    intro c hc
    obtain ⟨i, hi, rfl⟩ := List.mem_map.mp hc
    exact hcon i (List.mem_range.mp hi)
  have hnodup : ((List.range (existing.length + 1)).map (fun i => f (start + i))).Nodup := by
    refine List.Nodup.map ?_ (List.nodup_range _)
    intro i1 i2 hi
    have := hinj hi
    omega
  have hlen : ((List.range (existing.length + 1)).map (fun i => f (start + i))).length =
      existing.length + 1 := by simp
  have hcard1 : ((List.range (existing.length + 1)).map
      (fun i => f (start + i))).toFinset.card = existing.length + 1 := by
    rw [List.toFinset_card_of_nodup hnodup, hlen]
  have hcard2 : ((List.range (existing.length + 1)).map
      (fun i => f (start + i))).toFinset.card ≤ existing.toFinset.card := by
    apply Finset.card_le_card
    intro c hc
    rw [List.mem_toFinset] at hc
    rw [List.mem_toFinset]
    exact hsub c hc
  have hcard3 : existing.toFinset.card ≤ existing.length := existing.toFinset_card_le
  omega

theorem findFreeName_isSome (existing : List String) (f : ℕ → String) :
    ∀ (fuel start : ℕ), (∃ i, i < fuel ∧ f (start + i) ∉ existing) →
      (findFreeName existing f fuel start).isSome := by
  intro fuel
  induction fuel with
  | zero =>
    rintro start ⟨i, hi, _⟩
    omega
  | succ fuel ih =>
    rintro start ⟨i, hi, hfree⟩
    unfold findFreeName
    by_cases hin : f start ∈ existing
    · rw [if_pos hin]
      apply ih
      have hi0 : i ≠ 0 := by
        intro h0
        rw [h0, Nat.add_zero] at hfree
        exact hfree hin
      exact ⟨i - 1, by omega, by
        have : start + 1 + (i - 1) = start + i := by omega
        rw [this]
        exact hfree⟩
    · rw [if_neg hin]
      simp

/-- C5 counterexample: with `report.pdf` already present,
`ExecutionService._resolve_collision` yields `report_v1.pdf` for the next
`report.pdf` — not `report_v2.pdf` as the claim states for both resolvers. -/
theorem C5_collision_counterexample :
    resolve_collision ["/dst/report.pdf"] ⟨"/dst", "report", ".pdf"⟩ =
      some "/dst/report_v1.pdf" ∧
    "/dst/report_v1.pdf" ≠ "/dst/report_v2.pdf" := by
  constructor
  · rfl
  · decide

/-- C5 (amended): collision resolution is deterministic and never overwrites:
both resolvers return the literal destination unchanged when it does not exist;
when it exists, `Executor._get_safe_dest` returns the first free name among
`stem_v2, stem_v3, …` (same parent, same suffix), while
`ExecutionService._resolve_collision` returns the first free name among
`stem_v1, stem_v2, …`. -/
theorem C5_collision_resolution (existing : List String) (dest : DestPath) :
    (dest.rendered ∉ existing →
      get_safe_dest existing dest = some dest.rendered ∧
      resolve_collision existing dest = some dest.rendered) ∧
    (dest.rendered ∈ existing →
      (∃ k, 2 ≤ k ∧ get_safe_dest existing dest = some (dest.versioned k) ∧
        dest.versioned k ∉ existing ∧
        ∀ j, 2 ≤ j → j < k → dest.versioned j ∈ existing) ∧
      (∃ k, 1 ≤ k ∧ resolve_collision existing dest = some (dest.versioned k) ∧
        dest.versioned k ∉ existing ∧
        ∀ j, 1 ≤ j → j < k → dest.versioned j ∈ existing)) := by
  constructor
  · intro hfree
    unfold get_safe_dest resolve_collision
    rw [if_neg hfree, if_neg hfree]
    exact ⟨rfl, rfl⟩
  · intro hex
    constructor
    · have hsome := findFreeName_isSome existing dest.versioned (existing.length + 1) 2
        (exists_free_candidate existing dest.versioned (versioned_injective dest) 2)
      obtain ⟨r, hr⟩ := Option.isSome_iff_exists.mp hsome
      obtain ⟨k, hk1, hk2, hk3, hk4⟩ := findFreeName_spec existing dest.versioned _ _ r hr
      subst hk2
      refine ⟨k, hk1, ?_, hk3, hk4⟩
      unfold get_safe_dest
      rw [if_pos hex, hr]
    · have hsome := findFreeName_isSome existing dest.versioned (existing.length + 1) 1
        (exists_free_candidate existing dest.versioned (versioned_injective dest) 1)
      obtain ⟨r, hr⟩ := Option.isSome_iff_exists.mp hsome
      obtain ⟨k, hk1, hk2, hk3, hk4⟩ := findFreeName_spec existing dest.versioned _ _ r hr
      subst hk2
      refine ⟨k, hk1, ?_, hk3, hk4⟩
      unfold resolve_collision
      rw [if_pos hex, hr]

theorem C5_collision_resolution_witness :
    get_safe_dest [] ⟨"/dst", "report", ".pdf"⟩ =
      some (DestPath.rendered ⟨"/dst", "report", ".pdf"⟩) ∧
    resolve_collision [] ⟨"/dst", "report", ".pdf"⟩ =
      some (DestPath.rendered ⟨"/dst", "report", ".pdf"⟩) :=
  (C5_collision_resolution [] ⟨"/dst", "report", ".pdf"⟩).1 (by simp)

/-! ## Transactional execution (`execution.py` 49-105, `executor.py` 56-97) -/

/-- Observable effects of a move operation, in program order. -/
inductive FsEvent
  | txWrite (txid : String) (status : String)
  | mkdir (dir : String)
  | move (src dest : String)
  | logAppend (src dest : String)
deriving DecidableEq, Repr

/-- Events that touch the filesystem. -/
def FsEvent.isFsMutation : FsEvent → Bool
  | .mkdir _ => true
  | .move _ _ => true
  | _ => false

/-- Events that durably record a transaction row in the database. -/
def FsEvent.isTxWrite : FsEvent → Bool
  | .txWrite _ _ => true
  | _ => false

/-- Outcome of `ExecutionService.execute_move`. -/
structure MoveOutcome where
  trace : List FsEvent
  txStatus : String
  ok : Bool
deriving DecidableEq, Repr

/-- `ExecutionService.execute_move` (execution.py 49-105): the destination is
resolved by `_resolve_collision`; a `pending` Transaction row is added and
committed (execution.py 58-72) before `mkdir`/`shutil.move`; on move success the
row is set to `committed` (79-94), on failure to `failed` and the exception is
re-raised (99-105, `ok = false`).  `moveOk` says whether `shutil.move` raises. -/
def execute_move (existing : List String) (txid src : String) (dest : DestPath)
    (moveOk : Bool) : MoveOutcome :=
  let final_dest := (resolve_collision existing dest).getD dest.rendered
  if moveOk then
    { trace := [.txWrite txid "pending", .mkdir dest.parent, .move src final_dest,
        .txWrite txid "committed"],
      txStatus := "committed", ok := true }
  else
    { trace := [.txWrite txid "pending", .mkdir dest.parent, .move src final_dest,
        .txWrite txid "failed"],
      txStatus := "failed", ok := false }

/-- `Executor.safe_move` (executor.py 56-97): missing source returns `False`
(62-64); dry-run returns `True` with no effect (70-72); otherwise mkdir + move,
and only after a successful move is the status-less transaction-log entry
appended and saved (84-91); an exception yields `False` with no log entry. -/
def safe_move (existing : List String) (dryRun : Bool) (src : String)
    (dest : DestPath) (moveOk : Bool) : List FsEvent × Bool :=
  if src ∉ existing then ([], false)
  else
    let final_dest := (get_safe_dest existing dest).getD dest.rendered
    if dryRun then ([], true)
    else if moveOk then
      ([.mkdir dest.parent, .move src final_dest, .logAppend src final_dest], true)
    else ([.mkdir dest.parent, .move src final_dest], false)

/-- C6 counterexample: a successful `Executor.safe_move` mutates the filesystem
(`mkdir`, `move`) while its trace contains no transaction-record write at all —
the status-less log entry is appended only after the move. -/
theorem C6_pending_counterexample :
    (safe_move ["/a/f.txt"] false "/a/f.txt" ⟨"/b", "f", ".txt"⟩ true).1 =
      [FsEvent.mkdir "/b", FsEvent.move "/a/f.txt" "/b/f.txt",
        FsEvent.logAppend "/a/f.txt" "/b/f.txt"] ∧
    ((safe_move ["/a/f.txt"] false "/a/f.txt" ⟨"/b", "f", ".txt"⟩ true).1.filter
      FsEvent.isTxWrite) = [] := by
  exact ⟨rfl, rfl⟩

/-- C6 (amended): in `ExecutionService.execute_move` a `pending` transaction
record is durably written before any filesystem mutation is attempted, and after
the mutation the same record is set to `committed` on success and `failed` on
failure.  `Executor.safe_move`, by contrast, writes no status-carrying record at
all: it appends its log entry only after a successful move, so its filesystem
mutations are never preceded by any record write. -/
theorem C6_pending_before_mutation (existing : List String) (txid src : String)
    (dest : DestPath) (moveOk dryRun : Bool) :
    (execute_move existing txid src dest moveOk).trace.head? =
      some (FsEvent.txWrite txid "pending") ∧
    (∀ i e, (execute_move existing txid src dest moveOk).trace.get? i = some e →
      e.isFsMutation = true → 0 < i) ∧
    (execute_move existing txid src dest moveOk).trace.getLast? =
      some (FsEvent.txWrite txid (execute_move existing txid src dest moveOk).txStatus) ∧
    (moveOk = true →
      (execute_move existing txid src dest moveOk).txStatus = "committed" ∧
      (execute_move existing txid src dest moveOk).ok = true ∧
      (execute_move existing txid src dest moveOk).trace =
        [FsEvent.txWrite txid "pending", FsEvent.mkdir dest.parent,
          FsEvent.move src ((resolve_collision existing dest).getD dest.rendered),
          FsEvent.txWrite txid "committed"]) ∧
    (moveOk = false →
      (execute_move existing txid src dest moveOk).txStatus = "failed" ∧
      (execute_move existing txid src dest moveOk).ok = false ∧
      (execute_move existing txid src dest moveOk).trace =
        [FsEvent.txWrite txid "pending", FsEvent.mkdir dest.parent,
          FsEvent.move src ((resolve_collision existing dest).getD dest.rendered),
          FsEvent.txWrite txid "failed"]) ∧
    ((safe_move existing dryRun src dest moveOk).1.filter FsEvent.isTxWrite = [] ∧
      (src ∈ existing → dryRun = false → moveOk = true →
        (safe_move existing dryRun src dest moveOk).1 =
          [FsEvent.mkdir dest.parent,
            FsEvent.move src ((get_safe_dest existing dest).getD dest.rendered),
            FsEvent.logAppend src ((get_safe_dest existing dest).getD dest.rendered)]) ∧
      (src ∈ existing → dryRun = false → moveOk = false →
        (safe_move existing dryRun src dest moveOk).1 =
          [FsEvent.mkdir dest.parent,
            FsEvent.move src ((get_safe_dest existing dest).getD dest.rendered)])) := by
  have hindex : ∀ (tr : List FsEvent), tr.head? = some (FsEvent.txWrite txid "pending") →
      ∀ i e, tr.get? i = some e → e.isFsMutation = true → 0 < i := by
    intro tr hh i e hi hf
    cases i with
    | zero =>
      cases tr with
      | nil => simp at hh
      | cons a t =>
        simp only [List.head?] at hh
        have ha : a = FsEvent.txWrite txid "pending" := Option.some.inj hh
        have he : e = a := (Option.some.inj hi).symm
        rw [he, ha] at hf
        simp [FsEvent.isFsMutation] at hf
    | succ n => exact Nat.succ_pos n
  cases moveOk
  · refine ⟨?_, ?_, ?_, ?_, ?_, ?_, ?_, ?_⟩
    · simp only [execute_move]
      rfl
    · apply hindex
      simp only [execute_move]
      rfl
    · simp only [execute_move]
      rfl
    · intro h; simp at h
    · intro _
      simp only [execute_move]
      exact ⟨rfl, rfl, rfl⟩
    · simp only [safe_move]
      by_cases hsrc : src ∉ existing
      · rw [if_pos hsrc]
        rfl
      · rw [if_neg hsrc]
        by_cases hdry : dryRun = true
        · rw [if_pos hdry]
          rfl
        · rw [if_neg hdry]
          rfl
    · intro _ _ hmk
      simp at hmk
    · intro hsrc hdry _
      simp only [safe_move]
      rw [if_neg (by simpa using hsrc), if_neg (by simp [hdry])]
      rfl
  · refine ⟨?_, ?_, ?_, ?_, ?_, ?_, ?_, ?_⟩
    · simp only [execute_move]
      rfl
    · apply hindex
      simp only [execute_move]
      rfl
    · simp only [execute_move]
      rfl
    · intro _
      simp only [execute_move]
      exact ⟨rfl, rfl, rfl⟩
    · intro h; simp at h
    · simp only [safe_move]
      by_cases hsrc : src ∉ existing
      · rw [if_pos hsrc]
        rfl
      · rw [if_neg hsrc]
        by_cases hdry : dryRun = true
        · rw [if_pos hdry]
          rfl
        · rw [if_neg hdry]
          rfl
    · intro hsrc hdry _
      simp only [safe_move]
      rw [if_neg (by simpa using hsrc), if_neg (by simp [hdry])]
      rfl
    · intro _ _ hmk
      simp at hmk

theorem C6_pending_before_mutation_witness :
    (execute_move [] "tx1" "/a/f" ⟨"/b", "f", ".txt"⟩ true).txStatus = "committed" ∧
    (execute_move [] "tx1" "/a/f" ⟨"/b", "f", ".txt"⟩ true).ok = true ∧
    (execute_move [] "tx1" "/a/f" ⟨"/b", "f", ".txt"⟩ true).trace =
      [FsEvent.txWrite "tx1" "pending", FsEvent.mkdir "/b",
        FsEvent.move "/a/f" ((resolve_collision [] ⟨"/b", "f", ".txt"⟩).getD
          (DestPath.rendered ⟨"/b", "f", ".txt"⟩)),
        FsEvent.txWrite "tx1" "committed"] :=
  (C6_pending_before_mutation [] "tx1" "/a/f" ⟨"/b", "f", ".txt"⟩ true false).2.2.2.1 rfl

/-! ## Undo (`src/services/executor.py` 99-127) -/

/-- One entry of the executor's JSON transaction log (executor.py 85-90,
timestamp omitted as it plays no role in `undo_last`). -/
structure TxLogEntry where
  action : String
  src : String
  dest : String
deriving DecidableEq, Repr

/-- The executor state touched by `undo_last`: the in-memory transaction list,
the persisted log file, and the filesystem as a list of existing paths. -/
structure ExecState where
  transactions : List TxLogEntry
  diskLog : List TxLogEntry
  fs : List String
deriving DecidableEq, Repr

/-- `shutil.move(dest, src)` on the path-list filesystem. -/
def moveFile (fs : List String) (a b : String) : List String :=
  b :: fs.erase a

/-- `Executor.undo_last` (executor.py 99-127): empty log returns `False`;
otherwise the last transaction is popped (`self.transactions.pop()`), and for a
`move` the file is moved back and the log saved only when the recorded
destination exists and the source does not; every other case returns `False`
(with the entry already popped from the in-memory list, and the disk log not
rewritten). -/
def undo_last (st : ExecState) : Bool × ExecState :=
  match st.transactions.getLast? with
  | none => (false, st)
  | some tx =>
    let st1 := { st with transactions := st.transactions.dropLast }
    if tx.action = "move" then
      if tx.dest ∈ st1.fs ∧ tx.src ∉ st1.fs then
        (true, { st1 with
            fs := moveFile st1.fs tx.dest tx.src,
            diskLog := st1.transactions })
      else (false, st1)
    else (false, st1)

/-- C7 counterexample: with a single `move` transaction whose recorded
destination no longer exists, `undo_last` reports failure but still removes the
entry from the in-memory transaction list — the state is mutated. -/
theorem C7_undo_counterexample :
    (undo_last ⟨[⟨"move", "/a/f", "/b/f"⟩], [⟨"move", "/a/f", "/b/f"⟩], []⟩).1 = false ∧
    (undo_last ⟨[⟨"move", "/a/f", "/b/f"⟩], [⟨"move", "/a/f", "/b/f"⟩], []⟩).2.transactions =
      [] ∧
    ([] : List TxLogEntry) ≠ [⟨"move", "/a/f", "/b/f"⟩] := by
  refine ⟨rfl, rfl, ?_⟩
  decide

/-- C7 (amended): `undo_last()` on an empty transaction log returns failure with
no side effects.  On a non-empty log whose last entry is a move, the entry is
always popped from the in-memory list; the file is moved back (and the shortened
log persisted) exactly when the recorded destination exists and the recorded
source does not; otherwise it reports failure with the filesystem and the
on-disk log unchanged but the entry nevertheless removed from the in-memory
list. -/
theorem C7_undo_last (st : ExecState) (tx : TxLogEntry) :
    (st.transactions = [] → undo_last st = (false, st)) ∧
    (st.transactions.getLast? = some tx → tx.action = "move" →
      (tx.dest ∈ st.fs ∧ tx.src ∉ st.fs →
        undo_last st = (true, ⟨st.transactions.dropLast, st.transactions.dropLast,
          moveFile st.fs tx.dest tx.src⟩)) ∧
      (¬(tx.dest ∈ st.fs ∧ tx.src ∉ st.fs) →
        undo_last st = (false, { st with transactions := st.transactions.dropLast }))) := by
  constructor
  · intro hempty
    unfold undo_last
    rw [hempty]
    rfl
  · intro hlast hmove
    constructor
    · intro hcond
      simp only [undo_last, hlast]
      rw [if_pos hmove, if_pos hcond]
    · intro hcond
      simp only [undo_last, hlast]
      rw [if_pos hmove, if_neg hcond]

theorem C7_undo_last_witness :
    undo_last ⟨[⟨"move", "/a/f", "/b/f"⟩], [⟨"move", "/a/f", "/b/f"⟩], ["/b/f"]⟩ =
      (true, ⟨List.dropLast [⟨"move", "/a/f", "/b/f"⟩],
        List.dropLast [⟨"move", "/a/f", "/b/f"⟩],
        moveFile ["/b/f"] "/b/f" "/a/f"⟩) :=
  ((C7_undo_last ⟨[⟨"move", "/a/f", "/b/f"⟩], [⟨"move", "/a/f", "/b/f"⟩], ["/b/f"]⟩
      ⟨"move", "/a/f", "/b/f"⟩).2 rfl rfl).1 (by simp)
